import Mathlib

/-!
Verification of the Grover sample and the remote job-lifecycle client of this
repository.

The Q# notebook (`samples/azure-quantum/grover/Grover.ipynb`) defines the
operations `PrepareUniform`, `PrepareAllOnes`, `ReflectAboutAllOnes`,
`ReflectAboutUniform`, `NIterations`, `ReflectAboutMarked` and
`SearchForMarkedInput`.  We embed the quantum program as state-vector
transformations.  Every gate appearing in the program (`H`, `X`, `Z`,
controlled `X`/`Z`) has a real matrix whose entries lie in the quadratic field
ℚ(√2), so amplitudes are represented by the computable ring `Q2` of numbers
`a + b·√2` with `a b : ℚ`.  A basis state of an `n`-qubit register is a map
`Fin n → Bool` giving the value of each qubit, so that qubit `i` carries bit
`i` of the little-endian index of the basis state.

`NIterations` computes with `Double` arithmetic; it is embedded over ℝ.  Q#'s
`Round` is realized by .NET `System.Math.Round`, which rounds half to even
(banker's rounding); `roundHalfEven` reproduces that convention.

The Cirq notebook only calls the external `azure-quantum` SDK
(`service.run`, `service.create_job`, `job.status`, `job.results`); the
polling loop and the result normalization are therefore modelled from the
spec where indicated.
-/

/-- The subring ℚ(√2) of ℝ: `⟨a, b⟩` stands for `a + b·√2`.  All amplitudes
produced by the gates of the Grover sample lie in this (computable) ring. -/
@[ext]
structure Q2 where
  re : ℚ
  rt : ℚ
  deriving DecidableEq, Repr

namespace Q2

instance : Zero Q2 := ⟨⟨0, 0⟩⟩

@[simp] theorem zero_re : (0 : Q2).re = 0 := rfl

@[simp] theorem zero_rt : (0 : Q2).rt = 0 := rfl

instance : One Q2 := ⟨⟨1, 0⟩⟩

@[simp] theorem one_re : (1 : Q2).re = 1 := rfl

@[simp] theorem one_rt : (1 : Q2).rt = 0 := rfl

instance : Add Q2 := ⟨fun x y => ⟨x.re + y.re, x.rt + y.rt⟩⟩

@[simp] theorem add_re (x y : Q2) : (x + y).re = x.re + y.re := rfl

@[simp] theorem add_rt (x y : Q2) : (x + y).rt = x.rt + y.rt := rfl

instance : Neg Q2 := ⟨fun x => ⟨-x.re, -x.rt⟩⟩

@[simp] theorem neg_re (x : Q2) : (-x).re = -x.re := rfl

@[simp] theorem neg_rt (x : Q2) : (-x).rt = -x.rt := rfl

instance : Mul Q2 := ⟨fun x y => ⟨x.re * y.re + 2 * x.rt * y.rt, x.re * y.rt + x.rt * y.re⟩⟩

@[simp] theorem mul_re (x y : Q2) : (x * y).re = x.re * y.re + 2 * x.rt * y.rt := rfl

@[simp] theorem mul_rt (x y : Q2) : (x * y).rt = x.re * y.rt + x.rt * y.re := rfl

instance addCommGroup : AddCommGroup Q2 := by
  refine
  { add := (· + ·)
    zero := (0 : Q2)
    sub := fun a b => a + -b
    neg := Neg.neg
    nsmul := @nsmulRec Q2 ⟨0⟩ ⟨(· + ·)⟩
    zsmul := @zsmulRec Q2 ⟨0⟩ ⟨(· + ·)⟩ ⟨Neg.neg⟩ (@nsmulRec Q2 ⟨0⟩ ⟨(· + ·)⟩)
    add_assoc := ?_
    zero_add := ?_
    add_zero := ?_
    neg_add_cancel := ?_
    add_comm := ?_ } <;>
  intros <;>
  ext <;>
  simp [add_comm, add_left_comm]

instance : NatCast Q2 := ⟨fun n => ⟨(n : ℚ), 0⟩⟩

instance : IntCast Q2 := ⟨fun n => ⟨(n : ℚ), 0⟩⟩

@[simp] theorem natCast_re (n : ℕ) : ((n : ℕ) : Q2).re = n := rfl

@[simp] theorem natCast_rt (n : ℕ) : ((n : ℕ) : Q2).rt = 0 := rfl

@[simp] theorem intCast_re (n : ℤ) : ((n : ℤ) : Q2).re = n := rfl

@[simp] theorem intCast_rt (n : ℤ) : ((n : ℤ) : Q2).rt = 0 := rfl

instance addGroupWithOne : AddGroupWithOne Q2 :=
  { Q2.addCommGroup with
    natCast := Nat.cast
    intCast := Int.cast
    natCast_zero := by ext <;> simp
    natCast_succ := fun n => by ext <;> simp
    intCast_ofNat := fun n => by ext <;> simp
    intCast_negSucc := fun n => by ext <;> simp [neg_add]
    one := 1 }

@[simp] theorem ofNat_re (n : ℕ) [n.AtLeastTwo] : (no_index (OfNat.ofNat n) : Q2).re = n := rfl

@[simp] theorem ofNat_rt (n : ℕ) [n.AtLeastTwo] : (no_index (OfNat.ofNat n) : Q2).rt = 0 := rfl

instance commRing : CommRing Q2 := by
  refine
  { Q2.addGroupWithOne with
    mul := (· * ·)
    npow := @npowRec Q2 ⟨1⟩ ⟨(· * ·)⟩
    add_comm := ?_
    left_distrib := ?_
    right_distrib := ?_
    zero_mul := ?_
    mul_zero := ?_
    mul_assoc := ?_
    one_mul := ?_
    mul_one := ?_
    mul_comm := ?_ } <;>
  intros <;>
  ext <;>
  simp <;>
  ring

/-- The amplitude `1/√2 = √2/2` contributed by a Hadamard gate. -/
def invSqrt2 : Q2 := ⟨0, 1/2⟩

theorem invSqrt2_mul_self : invSqrt2 * invSqrt2 * 2 = 1 := by
  ext <;> simp [invSqrt2]

theorem invSqrt2_sq : invSqrt2 * invSqrt2 = ⟨1/2, 0⟩ := by
  ext <;> simp [invSqrt2]

/-- The Born probability of an amplitude.  The gates of this program are real,
so the squared norm of an amplitude is just its square. -/
def normSq (x : Q2) : Q2 := x * x

/-- Evaluation of an element of ℚ(√2) as a real number. -/
noncomputable def toReal (x : Q2) : ℝ := (x.re : ℝ) + (x.rt : ℝ) * Real.sqrt 2

end Q2

/-! ## State vectors and gates

A state of an `n`-qubit register assigns an amplitude to every basis state,
and a basis state assigns a bit to every qubit: qubit `i` holds bit `i` of the
little-endian index of the basis state. -/

/-- State vector of an `n`-qubit register. -/
abbrev Sv (n : ℕ) : Type := (Fin n → Bool) → Q2

/-- The Hadamard gate `H` on qubit `i`. -/
def applyH {n : ℕ} (i : Fin n) (ψ : Sv n) : Sv n := fun b =>
  (ψ (Function.update b i false) + (if b i then -1 else 1) * ψ (Function.update b i true)) *
    Q2.invSqrt2

/-- The Pauli `X` gate on qubit `i`. -/
def applyX {n : ℕ} (i : Fin n) (ψ : Sv n) : Sv n := fun b => ψ (Function.update b i (!b i))

/-- Sequential application of a single-qubit operation to a list of qubits; Q#'s
`ApplyToEachCA(op, qubits)` is `applyToEach op (List.finRange n)`. -/
def applyToEach {n : ℕ} (g : Fin n → Sv n → Sv n) (qs : List (Fin n)) (ψ : Sv n) : Sv n :=
  qs.foldl (fun φ i => g i φ) ψ

/-- Q# `PrepareUniform(inputQubits) : ApplyToEachCA(H, inputQubits)`. -/
def PrepareUniform (n : ℕ) (ψ : Sv n) : Sv n := applyToEach applyH (List.finRange n) ψ

/-- Adjoint of `PrepareUniform`: `H` is self-adjoint, and the adjoint of a
sequence applies the adjoints in reverse order. -/
def AdjointPrepareUniform (n : ℕ) (ψ : Sv n) : Sv n :=
  applyToEach applyH (List.finRange n).reverse ψ

/-- Q# `PrepareAllOnes(inputQubits) : ApplyToEachCA(X, inputQubits)`. -/
def PrepareAllOnes (n : ℕ) (ψ : Sv n) : Sv n := applyToEach applyX (List.finRange n) ψ

/-- Adjoint of `PrepareAllOnes` (the `X` gates in reverse order). -/
def AdjointPrepareAllOnes (n : ℕ) (ψ : Sv n) : Sv n :=
  applyToEach applyX (List.finRange n).reverse ψ

/-- Q# `ReflectAboutAllOnes(inputQubits) : Controlled Z(Most(inputQubits),
Tail(inputQubits))`: a `Z` on the last qubit controlled on all the others,
i.e. a `(-1)` phase exactly on the all-ones basis state (for `n ≥ 1`; at
`n = 0` the Q# code would fail on `Tail` of an empty array, and no claim
touches that case). -/
def ReflectAboutAllOnes (n : ℕ) (ψ : Sv n) : Sv n := fun b =>
  if ∀ i, b i = true then -ψ b else ψ b

/-- Q# `ReflectAboutUniform`: `within { Adjoint PrepareUniform(inputQubits);
PrepareAllOnes(inputQubits) } apply { ReflectAboutAllOnes(inputQubits) }`,
i.e. the sequence `Adjoint PrepareUniform; PrepareAllOnes;
ReflectAboutAllOnes; Adjoint PrepareAllOnes; PrepareUniform`. -/
def ReflectAboutUniform (n : ℕ) (ψ : Sv n) : Sv n :=
  PrepareUniform n
    (AdjointPrepareAllOnes n
      (ReflectAboutAllOnes n
        (PrepareAllOnes n
          (AdjointPrepareUniform n ψ))))

/-! The oracle `ReflectAboutMarked` allocates an ancilla (`outputQubit`), so it
acts on the joint space of the register and the ancilla. -/

/-- Joint state of the `n`-qubit register and the ancilla `outputQubit`. -/
abbrev SvA (n : ℕ) : Type := (Fin n → Bool) → Bool → Q2

/-- The `X` gate on the ancilla. -/
def applyXOut {n : ℕ} (ψ : SvA n) : SvA n := fun b a => ψ b (!a)

/-- The Hadamard gate on the ancilla. -/
def applyHOut {n : ℕ} (ψ : SvA n) : SvA n := fun b a =>
  (ψ b false + (if a then -1 else 1) * ψ b true) * Q2.invSqrt2

/-- Q# `(ControlledOnInt(idxMarked, X))(inputQubits, outputQubit)`: flip the
ancilla exactly when the register is in the (little-endian) basis state
`idxMarked`. -/
def controlledOnIntX {n : ℕ} (idxMarked : ℕ) (ψ : SvA n) : SvA n := fun b a =>
  if ∀ j, b j = idxMarked.testBit j then ψ b (!a) else ψ b a

/-- Q# `ReflectAboutMarked` on the joint space: `within { X(outputQubit);
H(outputQubit) } apply { (ControlledOnInt(idxMarked, X))(inputQubits,
outputQubit) }`, i.e. `X; H; ControlledOnInt-X; H; X` on the ancilla. -/
def ReflectAboutMarkedFull {n : ℕ} (idxMarked : ℕ) (ψ : SvA n) : SvA n :=
  applyXOut (applyHOut (controlledOnIntX idxMarked (applyHOut (applyXOut ψ))))

/-- A register state joined with a freshly allocated ancilla in state `|0⟩`. -/
def withAncillaZero {n : ℕ} (ψ : Sv n) : SvA n := fun b a => if a then 0 else ψ b

/-- The action of Q# `ReflectAboutMarked(idxMarked, inputQubits)` on the
register: the ancilla starts in `|0⟩` (fresh `use outputQubit = Qubit()`) and
is returned to `|0⟩` by the `within`/`apply` block, so the register state is
the ancilla-`false` component of the joint state. -/
def ReflectAboutMarked {n : ℕ} (idxMarked : ℕ) (ψ : Sv n) : Sv n := fun b =>
  ReflectAboutMarkedFull idxMarked (withAncillaZero ψ) b false

/-! ## Involutivity of the reflection operators -/

theorem applyH_applyH {n : ℕ} (i : Fin n) (ψ : Sv n) : applyH i (applyH i ψ) = ψ := by
  funext b
  cases hb : b i with
  | false =>
    have hb' : Function.update b i false = b := by
      rw [← hb]; exact Function.update_eq_self i b
    simp only [applyH, Function.update_idem, Function.update_same, hb, hb']
    ext <;> simp [Q2.invSqrt2] <;> ring
  | true =>
    have hb' : Function.update b i true = b := by
      rw [← hb]; exact Function.update_eq_self i b
    simp only [applyH, Function.update_idem, Function.update_same, hb, hb']
    ext <;> simp [Q2.invSqrt2] <;> ring

theorem applyX_applyX {n : ℕ} (i : Fin n) (ψ : Sv n) : applyX i (applyX i ψ) = ψ := by
  funext b
  simp only [applyX, Function.update_same, Function.update_idem, Bool.not_not]
  rw [Function.update_eq_self i b]

theorem reflectAboutAllOnes_involutive (n : ℕ) (ψ : Sv n) :
    ReflectAboutAllOnes n (ReflectAboutAllOnes n ψ) = ψ := by
  funext b
  simp only [ReflectAboutAllOnes]
  split_ifs <;> simp

theorem applyToEach_reverse_applyToEach {n : ℕ} (g : Fin n → Sv n → Sv n)
    (hg : ∀ i ψ, g i (g i ψ) = ψ) (l : List (Fin n)) (ψ : Sv n) :
    applyToEach g l.reverse (applyToEach g l ψ) = ψ := by
  induction l generalizing ψ with
  | nil => rfl
  | cons a l ih =>
    simp only [applyToEach, List.reverse_cons, List.foldl_cons, List.foldl_append,
      List.foldl_cons, List.foldl_nil]
    have h1 : List.foldl (fun φ i => g i φ) (List.foldl (fun φ i => g i φ) (g a ψ) l)
        l.reverse = g a ψ := ih (g a ψ)
    rw [h1, hg]

theorem applyToEach_applyToEach_reverse {n : ℕ} (g : Fin n → Sv n → Sv n)
    (hg : ∀ i ψ, g i (g i ψ) = ψ) (l : List (Fin n)) (ψ : Sv n) :
    applyToEach g l (applyToEach g l.reverse ψ) = ψ := by
  have h := applyToEach_reverse_applyToEach g hg l.reverse ψ
  rwa [List.reverse_reverse] at h

theorem adjointPrepareUniform_prepareUniform (n : ℕ) (ψ : Sv n) :
    AdjointPrepareUniform n (PrepareUniform n ψ) = ψ :=
  applyToEach_reverse_applyToEach applyH applyH_applyH (List.finRange n) ψ

theorem prepareUniform_adjointPrepareUniform (n : ℕ) (ψ : Sv n) :
    PrepareUniform n (AdjointPrepareUniform n ψ) = ψ :=
  applyToEach_applyToEach_reverse applyH applyH_applyH (List.finRange n) ψ

theorem adjointPrepareAllOnes_prepareAllOnes (n : ℕ) (ψ : Sv n) :
    AdjointPrepareAllOnes n (PrepareAllOnes n ψ) = ψ :=
  applyToEach_reverse_applyToEach applyX applyX_applyX (List.finRange n) ψ

theorem prepareAllOnes_adjointPrepareAllOnes (n : ℕ) (ψ : Sv n) :
    PrepareAllOnes n (AdjointPrepareAllOnes n ψ) = ψ :=
  applyToEach_applyToEach_reverse applyX applyX_applyX (List.finRange n) ψ

/-- C5: applying `ReflectAboutUniform` twice in succession to any register
state returns the register to its original state exactly (hence in particular
up to global phase): the operator is a self-adjoint involution, for every
register size and every starting state. -/
theorem reflectAboutUniform_twice_id (n : ℕ) (ψ : Sv n) :
    ReflectAboutUniform n (ReflectAboutUniform n ψ) = ψ := by
  unfold ReflectAboutUniform
  rw [adjointPrepareUniform_prepareUniform, prepareAllOnes_adjointPrepareAllOnes,
    reflectAboutAllOnes_involutive, adjointPrepareAllOnes_prepareAllOnes,
    prepareUniform_adjointPrepareUniform]

/-! ## The iteration count `NIterations` -/

/-- Rounding to the nearest integer with ties going to the even neighbour:
the convention of .NET `System.Math.Round`, which realizes Q#'s
`Microsoft.Quantum.Math.Round`.  Away from ties it agrees with `round`. -/
noncomputable def roundHalfEven (x : ℝ) : ℤ :=
  if Int.fract x = 1/2 then (if Even ⌊x⌋ then ⌊x⌋ else ⌊x⌋ + 1) else round x

/-- Q# `NIterations(nQubits)`:
`let nItems = 1 <<< nQubits;`
`let angle = ArcSin(1. / Sqrt(IntAsDouble(nItems)));`
`let nIterations = Round(0.25 * PI() / angle - 0.5);`. -/
noncomputable def NIterations (nQubits : ℕ) : ℤ :=
  let nItems : ℕ := 1 <<< nQubits
  let angle : ℝ := Real.arcsin (1 / Real.sqrt (nItems : ℝ))
  roundHalfEven (0.25 * Real.pi / angle - 0.5)

/-- Modelled from the spec: the `IterationPlan` derived value
`round(0.25·π / arcsin(1/√(2^N)) − 0.5)`, to be compared with the code's
`NIterations`. -/
noncomputable def IterationPlan (N : ℕ) : ℤ :=
  roundHalfEven (0.25 * Real.pi / Real.arcsin (1 / Real.sqrt ((2 : ℝ) ^ N)) - 0.5)

theorem nIterations_eq_iterationPlan (n : ℕ) : NIterations n = IterationPlan n := by
  simp only [NIterations, IterationPlan]
  have h : ((1 <<< n : ℕ) : ℝ) = (2 : ℝ) ^ n := by
    rw [Nat.shiftLeft_eq, one_mul]
    push_cast
    rfl
  rw [h]

theorem roundHalfEven_nonneg {y : ℝ} (hy : -(1/2) ≤ y) : 0 ≤ roundHalfEven y := by
  unfold roundHalfEven
  have hfl : (-1 : ℤ) ≤ ⌊y⌋ := by
    have : (((-1 : ℤ) : ℝ)) ≤ y := by push_cast; linarith
    exact Int.le_floor.mpr this
  split_ifs with hf he
  · rcases Int.even_iff.mp he with h2
    omega
  · omega
  · rw [round_eq]
    refine Int.le_floor.mpr ?_
    push_cast
    linarith

theorem roundHalfEven_eq_two {y : ℝ} (h1 : 3/2 ≤ y) (h2 : y < 5/2) : roundHalfEven y = 2 := by
  unfold roundHalfEven
  split_ifs with hf he
  · -- a tie: `y = ⌊y⌋ + 1/2`, and the bounds force `⌊y⌋ = 1`, which is odd
    have hy : ((⌊y⌋ : ℝ)) + 1/2 = y := by
      have := Int.floor_add_fract y
      rw [hf] at this
      linarith
    have hfl : ⌊y⌋ = 1 := by
      have hlow : ((1 : ℤ) : ℝ) ≤ (⌊y⌋ : ℝ) := by push_cast; linarith
      have hhigh : ((⌊y⌋ : ℝ)) < ((2 : ℤ) : ℝ) := by push_cast; linarith
      have h1' : (1 : ℤ) ≤ ⌊y⌋ := by exact_mod_cast hlow
      have h2' : ⌊y⌋ < (2 : ℤ) := by exact_mod_cast hhigh
      omega
    rw [hfl] at he
    exact absurd he (by decide)
  · have hy : ((⌊y⌋ : ℝ)) + 1/2 = y := by
      have := Int.floor_add_fract y
      rw [hf] at this
      linarith
    have hfl : ⌊y⌋ = 1 := by
      have hlow : ((1 : ℤ) : ℝ) ≤ (⌊y⌋ : ℝ) := by push_cast; linarith
      have hhigh : ((⌊y⌋ : ℝ)) < ((2 : ℤ) : ℝ) := by push_cast; linarith
      have h1' : (1 : ℤ) ≤ ⌊y⌋ := by exact_mod_cast hlow
      have h2' : ⌊y⌋ < (2 : ℤ) := by exact_mod_cast hhigh
      omega
    omega
  · rw [round_eq]
    refine Int.floor_eq_iff.mpr ?_
    constructor
    · push_cast; linarith
    · push_cast; linarith

theorem nIterations_val (n : ℕ) :
    NIterations n
      = roundHalfEven (0.25 * Real.pi / Real.arcsin (1 / Real.sqrt ((2 : ℝ) ^ n)) - 0.5) := by
  rw [nIterations_eq_iterationPlan]
  rfl

/-- At `n = 0` the formula evaluates to `round(0.25·π/(π/2) − 0.5) = round 0`. -/
theorem nIterations_zero : NIterations 0 = 0 := by
  rw [nIterations_val]
  have h1 : Real.sqrt ((2 : ℝ) ^ 0) = 1 := by
    rw [pow_zero, Real.sqrt_one]
  rw [h1, div_one, Real.arcsin_one]
  have h2 : 0.25 * Real.pi / (Real.pi / 2) - 0.5 = 0 := by
    field_simp
    ring
  rw [h2]
  unfold roundHalfEven
  simp [Int.fract_zero]

theorem nIterations_nonneg (n : ℕ) : 0 ≤ NIterations n := by
  rw [nIterations_val]
  apply roundHalfEven_nonneg
  have h : 0 ≤ 0.25 * Real.pi / Real.arcsin (1 / Real.sqrt ((2 : ℝ) ^ n)) := by
    apply div_nonneg
    · have := Real.pi_pos
      linarith
    · exact Real.arcsin_nonneg.mpr (by positivity)
  linarith

theorem arcsin_inv_sqrt_eight_le : Real.arcsin (1 / Real.sqrt 8) ≤ Real.pi / 8 := by
  have hpi := Real.pi_pos
  have h8 : (0 : ℝ) < Real.sqrt 8 := Real.sqrt_pos.mpr (by norm_num)
  have h8sq : Real.sqrt 8 ^ 2 = 8 := Real.sq_sqrt (by norm_num)
  have hs0 : 0 ≤ Real.sin (Real.pi / 8) :=
    Real.sin_nonneg_of_nonneg_of_le_pi (by positivity) (by linarith)
  have hssq : Real.sin (Real.pi / 8) ^ 2 = (2 - Real.sqrt 2) / 4 := by
    have h := Real.sin_sq_eq_half_sub (Real.pi / 8)
    rw [show 2 * (Real.pi / 8) = Real.pi / 4 by ring, Real.cos_pi_div_four] at h
    rw [h]
    ring
  have hsqrt2 : Real.sqrt 2 ≤ 3 / 2 := by
    nlinarith [Real.sq_sqrt (by norm_num : (0 : ℝ) ≤ 2), Real.sqrt_nonneg 2,
      sq_nonneg (Real.sqrt 2 - 3 / 2)]
  have hle : 1 / Real.sqrt 8 ≤ Real.sin (Real.pi / 8) := by
    rw [div_le_iff₀ h8]
    have ht2 : (Real.sin (Real.pi / 8) * Real.sqrt 8) ^ 2 = (2 - Real.sqrt 2) * 2 := by
      rw [mul_pow, hssq, h8sq]
      ring
    nlinarith [ht2, hsqrt2, mul_nonneg hs0 h8.le]
  calc Real.arcsin (1 / Real.sqrt 8) ≤ Real.arcsin (Real.sin (Real.pi / 8)) :=
        Real.monotone_arcsin hle
    _ = Real.pi / 8 := Real.arcsin_sin (by linarith) (by linarith)

theorem pi_div_twelve_lt_arcsin_inv_sqrt_eight :
    Real.pi / 12 < Real.arcsin (1 / Real.sqrt 8) := by
  have hpi := Real.pi_pos
  have h8 : (0 : ℝ) < Real.sqrt 8 := Real.sqrt_pos.mpr (by norm_num)
  have h8sq : Real.sqrt 8 ^ 2 = 8 := Real.sq_sqrt (by norm_num)
  have hs0 : 0 ≤ Real.sin (Real.pi / 12) :=
    Real.sin_nonneg_of_nonneg_of_le_pi (by positivity) (by linarith)
  have hssq : Real.sin (Real.pi / 12) ^ 2 = (2 - Real.sqrt 3) / 4 := by
    have h := Real.sin_sq_eq_half_sub (Real.pi / 12)
    rw [show 2 * (Real.pi / 12) = Real.pi / 6 by ring, Real.cos_pi_div_six] at h
    rw [h]
    ring
  have hsqrt3 : (3 : ℝ) / 2 < Real.sqrt 3 := by
    rw [Real.lt_sqrt (by norm_num)]
    norm_num
  have hlt : Real.sin (Real.pi / 12) < 1 / Real.sqrt 8 := by
    rw [lt_div_iff₀ h8]
    have ht2 : (Real.sin (Real.pi / 12) * Real.sqrt 8) ^ 2 = (2 - Real.sqrt 3) * 2 := by
      rw [mul_pow, hssq, h8sq]
      ring
    nlinarith [ht2, hsqrt3, mul_nonneg hs0 h8.le]
  have hmem1 : Real.sin (Real.pi / 12) ∈ Set.Icc (-1 : ℝ) 1 :=
    ⟨Real.neg_one_le_sin _, Real.sin_le_one _⟩
  have hmem2 : 1 / Real.sqrt 8 ∈ Set.Icc (-1 : ℝ) 1 := by
    constructor
    · have hnn : (0 : ℝ) ≤ 1 / Real.sqrt 8 := by positivity
      linarith
    · rw [div_le_one h8]
      rw [← Real.sqrt_one]
      exact Real.sqrt_le_sqrt (by norm_num)
  calc Real.pi / 12 = Real.arcsin (Real.sin (Real.pi / 12)) :=
        (Real.arcsin_sin (by linarith) (by linarith)).symm
    _ < Real.arcsin (1 / Real.sqrt 8) := Real.strictMonoOn_arcsin hmem1 hmem2 hlt

/-- The reference value of the sample: `NIterations(3) = 2`. -/
theorem nIterations_three : NIterations 3 = 2 := by
  rw [nIterations_val]
  have h8 : ((2 : ℝ) ^ 3) = 8 := by norm_num
  rw [h8]
  have hθub := arcsin_inv_sqrt_eight_le
  have hθlb := pi_div_twelve_lt_arcsin_inv_sqrt_eight
  have hpi := Real.pi_pos
  have hθpos : 0 < Real.arcsin (1 / Real.sqrt 8) := by
    have : 0 < Real.pi / 12 := by positivity
    linarith
  have hx1 : 2 ≤ 0.25 * Real.pi / Real.arcsin (1 / Real.sqrt 8) := by
    rw [le_div_iff₀ hθpos]
    linarith
  have hx2 : 0.25 * Real.pi / Real.arcsin (1 / Real.sqrt 8) < 3 := by
    rw [div_lt_iff₀ hθpos]
    linarith
  exact roundHalfEven_eq_two (by linarith) (by linarith)

/-! ## The search routine -/

/-- A freshly allocated register (`use qubits = Qubit[nQubits]`) in `|0...0⟩`. -/
def initialState (n : ℕ) : Sv n := fun b => if ∀ i, b i = false then 1 else 0

/-- The uniform superposition over all `2^n` basis states. -/
def uniformState (n : ℕ) : Sv n := fun _ => Q2.invSqrt2 ^ n

/-- The probability distribution of `ForEach(MResetZ, qubits)`: measuring every
qubit of `ψ` returns the list `out` (entry `i` being the result on qubit `i`)
with the Born probability of the corresponding basis state; lists whose length
is not the register size have probability `0`. -/
def measureAll (n : ℕ) (ψ : Sv n) : List Bool → Q2 := fun out =>
  if h : out.length = n then Q2.normSq (ψ (fun i => out.get (Fin.cast h.symm i))) else 0

/-- Q# `SearchForMarkedInput(nQubits, idxMarked)`:
`use qubits = Qubit[nQubits];`
`PrepareUniform(qubits);`
`for _ in 0..NIterations(nQubits) - 1 { ReflectAboutMarked(idxMarked, qubits);
ReflectAboutUniform(qubits); }`
`return ForEach(MResetZ, qubits);` —
embedded as the distribution over the returned measurement lists. -/
noncomputable def SearchForMarkedInput (nQubits idxMarked : ℕ) : List Bool → Q2 :=
  measureAll nQubits
    ((fun ψ => ReflectAboutUniform nQubits (ReflectAboutMarked idxMarked ψ))^[
        (NIterations nQubits).toNat]
      (PrepareUniform nQubits (initialState nQubits)))

/-- Little-endian encoding of an index as the list of its first `n` bits, the
convention in which the sample's measurement results are read. -/
def encodeLE (n k : ℕ) : List Bool := List.ofFn (fun i : Fin n => k.testBit i)

/-- Little-endian decoding of a bit list. -/
def decodeLE : List Bool → ℕ
  | [] => 0
  | b :: rest => (if b then 1 else 0) + 2 * decodeLE rest

theorem decodeLE_encodeLE {n k : ℕ} (hk : k < 2 ^ n) : decodeLE (encodeLE n k) = k := by
  induction n generalizing k with
  | zero =>
    have : k = 0 := by
      have := hk
      omega
    subst this
    rfl
  | succ n ih =>
    have hhead : encodeLE (n + 1) k = k.testBit 0 :: encodeLE n (k / 2) := by
      unfold encodeLE
      rw [List.ofFn_succ]
      congr 1
      refine congrArg List.ofFn (funext fun i => ?_)
      rw [Fin.val_succ]
      exact Nat.testBit_add_one k i
    rw [hhead]
    have hk2 : k / 2 < 2 ^ n := by
      have h2 : (2 : ℕ) ^ (n + 1) = 2 ^ n * 2 := by ring
      rw [h2] at hk
      omega
    have hbit : (if k.testBit 0 then 1 else 0) = k % 2 := by
      rw [Nat.testBit_zero]
      rcases Nat.mod_two_eq_zero_or_one k with h | h <;> simp [h]
    unfold decodeLE
    rw [hbit, ih hk2]
    omega

theorem applyToEach_H_initial {n : ℕ} (l : List (Fin n)) :
    l.Nodup →
    applyToEach applyH l (initialState n)
      = fun b => if ∀ i, i ∉ l → b i = false then Q2.invSqrt2 ^ l.length else 0 := by
  induction l using List.reverseRecOn with
  | nil =>
    intro _
    funext b
    simp [applyToEach, initialState]
  | append_singleton l a ih =>
    intro hl
    obtain ⟨hnd, -, hdisj⟩ := List.nodup_append.mp hl
    have ha : a ∉ l := by
      intro hmem
      exact hdisj hmem (by simp)
    rw [show applyToEach applyH (l ++ [a]) (initialState n)
        = applyH a (applyToEach applyH l (initialState n)) from by
      simp [applyToEach, List.foldl_append]]
    rw [ih hnd]
    funext b
    have hT : ¬∀ i, i ∉ l → Function.update b a true i = false := by
      intro h
      have hv := h a ha
      simp [Function.update_same] at hv
    have hcond : (∀ i, i ∉ l → Function.update b a false i = false)
        ↔ (∀ i, i ∉ l ++ [a] → b i = false) := by
      constructor
      · intro h i hi
        have hil : i ∉ l := fun hmem => hi (List.mem_append.mpr (Or.inl hmem))
        have hia : i ≠ a := by
          intro hia
          exact hi (List.mem_append.mpr (Or.inr (by simp [hia])))
        have hv := h i hil
        rwa [Function.update_noteq hia] at hv
      · intro h i hil
        by_cases hia : i = a
        · subst hia
          simp
        · rw [Function.update_noteq hia]
          refine h i ?_
          simp [List.mem_append, hil, hia]
    simp only [applyH, if_neg hT, mul_zero, add_zero]
    by_cases hc : ∀ i, i ∉ l ++ [a] → b i = false
    · rw [if_pos (hcond.mpr hc), if_pos hc, List.length_append, List.length_singleton,
        pow_succ]
    · rw [if_neg (fun h => hc (hcond.mp h)), if_neg hc, zero_mul]

/-- `PrepareUniform` maps the freshly allocated register to the uniform
superposition. -/
theorem prepareUniform_initial (n : ℕ) : PrepareUniform n (initialState n) = uniformState n := by
  unfold PrepareUniform uniformState
  rw [applyToEach_H_initial (List.finRange n) (List.nodup_finRange n)]
  funext b
  rw [if_pos fun i hi => absurd (List.mem_finRange i) hi, List.length_finRange]

/-! ## Pointwise reasoning on concrete registers -/

theorem testBit_decodeLE (l : List Bool) (j : ℕ) (hj : j < l.length) :
    (decodeLE l).testBit j = l.get ⟨j, hj⟩ := by
  induction l generalizing j with
  | nil => simp at hj
  | cons b t ih =>
    cases j with
    | zero =>
      show (decodeLE (b :: t)).testBit 0 = b
      unfold decodeLE
      rw [Nat.testBit_zero]
      cases b
      · simp [Nat.add_mul_mod_self_left]
      · simp [Nat.add_mul_mod_self_left]
    | succ j =>
      have hj' : j < t.length := by simpa using hj
      show (decodeLE (b :: t)).testBit (j + 1) = t.get ⟨j, hj'⟩
      rw [Nat.testBit_add_one]
      have hdiv : ((if b then 1 else 0) + 2 * decodeLE t) / 2 = decodeLE t := by
        cases b
        · simp
        · simp
          omega
      unfold decodeLE
      rw [hdiv]
      exact ih j hj'

theorem decodeLE_lt (l : List Bool) : decodeLE l < 2 ^ l.length := by
  induction l with
  | nil => simp [decodeLE]
  | cons b t ih =>
    unfold decodeLE
    have h2 : (2 : ℕ) ^ (b :: t).length = 2 * 2 ^ t.length := by
      simp [List.length_cons]
      ring
    rw [h2]
    cases b
    · simp
      omega
    · simp
      omega

/-- Two states agree when they agree on every basis state, enumerated through
the little-endian index. -/
theorem sv_eq_of_pointwise {n : ℕ} {f g : Sv n}
    (h : ∀ k : Fin (2 ^ n), f (fun i => Nat.testBit (k : ℕ) (i : ℕ))
      = g (fun i => Nat.testBit (k : ℕ) (i : ℕ))) : f = g := by
  funext b
  have hb : b = fun i : Fin n => Nat.testBit (decodeLE (List.ofFn b)) (i : ℕ) := by
    funext i
    rw [testBit_decodeLE (List.ofFn b) (i : ℕ) (by rw [List.length_ofFn]; exact i.isLt)]
    simp [List.get_ofFn]
  have hk := h ⟨decodeLE (List.ofFn b), by simpa using decodeLE_lt (List.ofFn b)⟩
  rw [hb]
  exact hk

/-! ## The concrete run of the sample: three qubits, marked index 6

The sample's register states stay of the form "one amplitude on the marked
basis state `|110⟩` (little-endian index 6), another on the seven others". -/

/-- A three-qubit state with amplitude `m·√2` on the basis state of index 6
(bits `false, true, true`) and `u·√2` on the other seven basis states. -/
def groverState36 (m u : ℚ) : Sv 3 := fun b =>
  if b 0 = false ∧ b 1 = true ∧ b 2 = true then ⟨0, m⟩ else ⟨0, u⟩

theorem prepareUniform_36 :
    PrepareUniform 3 (initialState 3) = groverState36 (1/4) (1/4) := by
  apply sv_eq_of_pointwise
  with_unfolding_all decide

theorem reflectAboutMarked_36_a :
    ReflectAboutMarked 6 (groverState36 (1/4) (1/4)) = groverState36 (-1/4) (1/4) := by
  apply sv_eq_of_pointwise
  with_unfolding_all decide

theorem reflectAboutUniform_36_a :
    ReflectAboutUniform 3 (groverState36 (-1/4) (1/4)) = groverState36 (-5/8) (-1/8) := by
  apply sv_eq_of_pointwise
  with_unfolding_all decide

theorem reflectAboutMarked_36_b :
    ReflectAboutMarked 6 (groverState36 (-5/8) (-1/8)) = groverState36 (5/8) (-1/8) := by
  apply sv_eq_of_pointwise
  with_unfolding_all decide

theorem reflectAboutUniform_36_b :
    ReflectAboutUniform 3 (groverState36 (5/8) (-1/8)) = groverState36 (11/16) (-1/16) := by
  apply sv_eq_of_pointwise
  with_unfolding_all decide

theorem search36_final_state :
    (fun ψ => ReflectAboutUniform 3 (ReflectAboutMarked 6 ψ))^[(NIterations 3).toNat]
      (PrepareUniform 3 (initialState 3)) = groverState36 (11/16) (-1/16) := by
  have hiter : (NIterations 3).toNat = 2 := by rw [nIterations_three]; rfl
  rw [hiter]
  show ReflectAboutUniform 3 (ReflectAboutMarked 6
      (ReflectAboutUniform 3 (ReflectAboutMarked 6 (PrepareUniform 3 (initialState 3)))))
    = groverState36 (11/16) (-1/16)
  rw [prepareUniform_36, reflectAboutMarked_36_a, reflectAboutUniform_36_a,
    reflectAboutMarked_36_b, reflectAboutUniform_36_b]

theorem search36_eq :
    SearchForMarkedInput 3 6 = measureAll 3 (groverState36 (11/16) (-1/16)) := by
  unfold SearchForMarkedInput
  rw [search36_final_state]

theorem search36_marked_val :
    SearchForMarkedInput 3 6 [false, true, true] = ⟨121/128, 0⟩ := by
  rw [search36_eq]
  with_unfolding_all decide

/-! ## Claim theorems for the Grover sample -/

/-- C1: for every `nQubits ≥ 1` and marked index in range, `SearchForMarkedInput`
prepares the uniform superposition from the fresh register, applies exactly
`NIterations nQubits` rounds of (`ReflectAboutMarked`, `ReflectAboutUniform`)
in that fixed order, and measures every qubit, the returned list being the
little-endian bit sequence of the measured basis state: the probability of
returning the little-endian encoding of `k` is the Born probability of basis
state `k` after those rounds applied to the uniform superposition (and
`PrepareUniform` of the fresh register is that uniform superposition, while
`decodeLE ∘ encodeLE` recovers the index and the returned list has one entry
per qubit). -/
theorem searchForMarkedInput_structure (n idxMarked k : ℕ) (hn : 1 ≤ n)
    (hidx : idxMarked < 2 ^ n) (hk : k < 2 ^ n) :
    SearchForMarkedInput n idxMarked (encodeLE n k)
      = Q2.normSq ((fun ψ => ReflectAboutUniform n (ReflectAboutMarked idxMarked ψ))^[
          (NIterations n).toNat] (uniformState n) (fun i : Fin n => k.testBit (i : ℕ)))
    ∧ PrepareUniform n (initialState n) = uniformState n
    ∧ decodeLE (encodeLE n k) = k
    ∧ (encodeLE n k).length = n := by
  refine ⟨?_, prepareUniform_initial n, decodeLE_encodeLE hk, by simp [encodeLE]⟩
  unfold SearchForMarkedInput
  rw [prepareUniform_initial n]
  unfold measureAll
  have hlen : (encodeLE n k).length = n := by simp [encodeLE]
  rw [dif_pos hlen]
  have harg : (fun i : Fin n => (encodeLE n k).get (Fin.cast hlen.symm i))
      = fun i : Fin n => k.testBit (i : ℕ) := by
    funext i
    simp [encodeLE, List.get_ofFn]
  rw [harg]

theorem searchForMarkedInput_structure_witness :
    SearchForMarkedInput 1 0 (encodeLE 1 0)
      = Q2.normSq ((fun ψ => ReflectAboutUniform 1 (ReflectAboutMarked 0 ψ))^[
          (NIterations 1).toNat] (uniformState 1) (fun i : Fin 1 => Nat.testBit 0 (i : ℕ)))
    ∧ PrepareUniform 1 (initialState 1) = uniformState 1
    ∧ decodeLE (encodeLE 1 0) = 0
    ∧ (encodeLE 1 0).length = 1 :=
  searchForMarkedInput_structure 1 0 0 (by norm_num) (by norm_num) (by norm_num)

/-- C2: for every `n ≥ 1` the code's `NIterations` agrees with the spec's
closed-form `IterationPlan` value `round(0.25·π / arcsin(1/√(2^n)) − 0.5)`,
and in particular `NIterations 3 = 2`. -/
theorem nIterations_matches_iterationPlan (n : ℕ) (hn : 1 ≤ n) :
    NIterations n = IterationPlan n ∧ NIterations 3 = 2 :=
  ⟨nIterations_eq_iterationPlan n, nIterations_three⟩

theorem nIterations_matches_iterationPlan_witness :
    NIterations 3 = IterationPlan 3 ∧ NIterations 3 = 2 :=
  nIterations_matches_iterationPlan 3 (by norm_num)

/-- C3: for every `N ≥ 1`, `NIterations N ≥ 0`. -/
theorem nIterations_nonneg_of_pos (N : ℕ) (hN : 1 ≤ N) : 0 ≤ NIterations N :=
  nIterations_nonneg N

theorem nIterations_nonneg_of_pos_witness : 0 ≤ NIterations 1 :=
  nIterations_nonneg_of_pos 1 (by norm_num)

/-- C4 counterexample: the code performs no domain check.  At the out-of-domain
input `n = 0` (`< 1`), `NIterations` returns the value `0` instead of failing
with a domain error. -/
theorem nIterations_zero_no_error : NIterations 0 = 0 :=
  nIterations_zero

/-- C4 amended: `NIterations` does not reject inputs `n < 1`; for every such
input (namely `n = 0`) it simply evaluates the closed-form formula and returns
`0`. -/
theorem nIterations_below_domain (n : ℕ) (h : n < 1) : NIterations n = 0 := by
  have h0 : n = 0 := by omega
  subst h0
  exact nIterations_zero

theorem nIterations_below_domain_witness : NIterations 0 = 0 :=
  nIterations_below_domain 0 (by norm_num)

/-- C6: for `N = 3` qubits and marked index `6`, the measurement distribution
produced by the search gives the little-endian pattern of index 6 probability
exactly `121/128 = 0.9453125 > 0.9`, gives each of the other seven outcomes
probability `1/128 = 0.0078125`, and the eight probabilities sum to `1`. -/
theorem searchForMarkedInput_36_distribution :
    SearchForMarkedInput 3 6 (encodeLE 3 6) = ⟨121/128, 0⟩
    ∧ (∀ k : Fin 8, SearchForMarkedInput 3 6 (encodeLE 3 (k : ℕ))
        = if (k : ℕ) = 6 then (⟨121/128, 0⟩ : Q2) else ⟨1/128, 0⟩)
    ∧ SearchForMarkedInput 3 6 [false, false, false]
      + SearchForMarkedInput 3 6 [true, false, false]
      + SearchForMarkedInput 3 6 [false, true, false]
      + SearchForMarkedInput 3 6 [true, true, false]
      + SearchForMarkedInput 3 6 [false, false, true]
      + SearchForMarkedInput 3 6 [true, false, true]
      + SearchForMarkedInput 3 6 [false, true, true]
      + SearchForMarkedInput 3 6 [true, true, true] = 1
    ∧ Q2.toReal (SearchForMarkedInput 3 6 (encodeLE 3 6)) > 9/10 := by
  have henc : encodeLE 3 6 = [false, true, true] := by decide
  refine ⟨?_, ?_, ?_, ?_⟩
  · rw [henc]
    exact search36_marked_val
  · rw [search36_eq]
    with_unfolding_all decide
  · rw [search36_eq]
    with_unfolding_all decide
  · rw [henc, search36_marked_val]
    show Q2.toReal ⟨121/128, 0⟩ > 9/10
    unfold Q2.toReal
    push_cast
    norm_num

/-- C10: the returned measurement list always has exactly `nQubits` entries,
one per register qubit: any outcome of a different length has probability
zero. -/
theorem searchForMarkedInput_length (n idxMarked : ℕ) (out : List Bool) (hn : 1 ≤ n)
    (h : SearchForMarkedInput n idxMarked out ≠ 0) : out.length = n := by
  by_contra hout
  apply h
  unfold SearchForMarkedInput measureAll
  rw [dif_neg hout]

theorem searchForMarkedInput_length_witness : ([false, true, true] : List Bool).length = 3 :=
  searchForMarkedInput_length 3 6 [false, true, true] (by norm_num)
    (by rw [search36_marked_val]; with_unfolding_all decide)

/-! ## The remote job-lifecycle client

The Cirq notebook drives the external `azure-quantum` SDK.  The notebook's
recorded outputs fix the observable facts (the shapes returned by the two
result paths, the raw payload); the polling loop and the normalization are
modelled from the spec. -/

/-- The two result shapes observed in the Cirq notebook: a typed result object
and a raw register-to-shots mapping. -/
inductive ResultShape
  | typedResult
  | rawMapping
  deriving DecidableEq

/-- From the notebook: `result = service.run(program=circuit, repetitions=100)`;
the notebook states "This returns a `cirq.Result` object" and `print(result)`
shows the typed `b=0...0` rendering. -/
def runReturnShape : ResultShape := ResultShape.typedResult

/-- From the notebook: `result = job.results()`; the notebook states "Note that
this does not return a `cirq.Result` object.  Instead it returns a dictionary
that is specific to the Honeywell simulator", and `type(result)` evaluates to
`dict`. -/
def jobResultsReturnShape : ResultShape := ResultShape.rawMapping

/-- The status set of a submitted job. -/
inductive JobStatus
  | waiting
  | executing
  | succeeded
  | failed
  | cancelled
  deriving DecidableEq

/-- A status is terminal when the job can make no further transition. -/
def JobStatus.isTerminal : JobStatus → Bool
  | JobStatus.succeeded => true
  | JobStatus.failed => true
  | JobStatus.cancelled => true
  | _ => false

/-- The error kinds of the client (spec section 7). -/
inductive ClientError
  | domainError
  | submissionError
  | pollingTimeout
  | backendFailure
  deriving DecidableEq

/-- A raw backend payload: register keys (such as `"m_b"`) mapped to per-shot
outcome strings, as printed by the notebook for the Honeywell target. -/
abbrev RawResult : Type := List (String × List String)

/-- An opaque job handle: the status the backend reports at each poll tick,
and the raw payload available once the job has succeeded. -/
structure Job where
  statusAt : ℕ → JobStatus
  rawResult : RawResult

/-- Modelled from the spec: result normalization recovers the declared
register name from a raw key by stripping the measurement prefix `m_` (the
notebook's `cirq.measure(..., key='b')` comes back as raw key `'m_b'`).  The
implementation lives in the external SDK. -/
def stripMeasurementKey (k : String) : String :=
  match k.data with
  | 'm' :: '_' :: rest => String.mk rest
  | _ => k

/-- Modelled from the spec: the normalized `ResultSet` keeps each register's
per-shot outcome list under the declared register name. -/
def normalizeResult (raw : RawResult) : RawResult :=
  raw.map fun p => (stripMeasurementKey p.1, p.2)

/-- The shot count a normalized result reports: the length of the per-shot
outcome list of its register. -/
def shotCount (rs : RawResult) : ℕ :=
  match rs with
  | [] => 0
  | r :: _ => r.2.length

/-- Modelled from the spec: `blockUntilResult`'s polling loop.  It polls the
job status once per tick until the status is terminal, returning the
normalized result on success and `backendFailure` on a terminal failure; when
the caller-configured deadline (`fuel` remaining polls) is exhausted first it
fails with `pollingTimeout`. -/
def pollForResult (job : Job) : ℕ → ℕ → Except ClientError RawResult
  | 0, _ => Except.error ClientError.pollingTimeout
  | fuel + 1, tick =>
    let s := job.statusAt tick
    if s.isTerminal then
      if s = JobStatus.succeeded then Except.ok (normalizeResult job.rawResult)
      else Except.error ClientError.backendFailure
    else pollForResult job fuel (tick + 1)

/-- Modelled from the spec: `blockUntilResult(job)` suspends the caller by
polling until a terminal status, bounded by the caller's deadline; the job
handle itself is returned unchanged, so the caller can poll it again. -/
def blockUntilResult (job : Job) (deadline : ℕ) :
    Except ClientError RawResult × Job :=
  (pollForResult job deadline 0, job)

/-- C7 counterexample: in the sample the synchronous `service.run` path and
the asynchronous `job.results()` path return different result shapes (a typed
`cirq.Result` versus a raw dictionary), so the two paths do not yield one
normalized `ResultSet` shape. -/
theorem run_vs_jobResults_shape_counterexample :
    runReturnShape ≠ jobResultsReturnShape := by
  decide

/-- C7 amended: `runSynchronous` is the submit-then-block composition, but the
two result paths of the sample are not normalized to one shape: the
synchronous path returns the typed result object while the asynchronous path
returns the raw register mapping. -/
theorem run_vs_jobResults_shapes :
    runReturnShape = ResultShape.typedResult
    ∧ jobResultsReturnShape = ResultShape.rawMapping :=
  ⟨rfl, rfl⟩

/-- C8: when no poll before the deadline observes a terminal status,
`blockUntilResult` fails with `pollingTimeout` — and with no other error
kind — and returns the job handle unchanged, still queryable. -/
theorem blockUntilResult_timeout (job : Job) (deadline : ℕ)
    (h : ∀ t, t < deadline → (job.statusAt t).isTerminal = false) :
    blockUntilResult job deadline = (Except.error ClientError.pollingTimeout, job) := by
  unfold blockUntilResult
  suffices haux : ∀ fuel tick, (∀ t, tick ≤ t → t < tick + fuel →
      (job.statusAt t).isTerminal = false) →
      pollForResult job fuel tick = Except.error ClientError.pollingTimeout by
    rw [haux deadline 0 fun t _ hlt => h t (by omega)]
  intro fuel
  induction fuel with
  | zero =>
    intro tick _
    rfl
  | succ fuel ih =>
    intro tick hterm
    have hs : (job.statusAt tick).isTerminal = false := hterm tick (by omega) (by omega)
    unfold pollForResult
    simp only [hs, Bool.false_eq_true, if_false]
    exact ih (tick + 1) fun t ht hlt => hterm t (by omega) (by omega)

/-- A job whose status never becomes terminal. -/
def neverDoneJob : Job := ⟨fun _ => JobStatus.waiting, []⟩

theorem blockUntilResult_timeout_witness :
    blockUntilResult neverDoneJob 3 = (Except.error ClientError.pollingTimeout, neverDoneJob) :=
  blockUntilResult_timeout neverDoneJob 3 fun _ _ => rfl

/-- C9: normalizing the raw backend payload `{'m_b': ['00','00']}` yields the
register `'b'` with outcome `'00'` for both shots, and a shot count of `2`. -/
theorem normalizeResult_honeywell_payload :
    normalizeResult [("m_b", ["00", "00"])] = [("b", ["00", "00"])]
    ∧ shotCount (normalizeResult [("m_b", ["00", "00"])]) = 2 := by
  constructor
  · rfl
  · rfl
